import Mathlib

/-!
Verification development for the thaf transcript builder
(`src/structures.rs`, `src/transcript_builder.rs`).

The Rust code is shallowly embedded: `Vec` becomes `List`, `usize` becomes
`Nat` (coordinates in this program stay far from overflow; the one place
where `usize` arithmetic can underflow, `region.start - 1`, is modelled
explicitly), `anyhow::bail!` and `panic!` both become `Except.error` values
whose constructors record which abort fired and the data interpolated into
its message, and `HashMap` becomes an association list that keeps keys in
first-insertion order (the Rust `HashMap` iterates in an unspecified order;
no theorem below depends on the iteration order of the map).
-/

namespace Thaf

/-- `Strand` from `structures.rs`: a two-valued orientation tag. -/
inductive Strand where
  | Plus
  | Minus
deriving DecidableEq

/-- `Region` from `structures.rs`. The Rust field `end` is a Lean keyword,
so it is written `«end»` here. Coordinates are 1-based inclusive. -/
structure Region where
  id : String
  start : Nat
  «end» : Nat
  strand : Strand
deriving DecidableEq

/-- `Transcript` from `structures.rs`. -/
structure Transcript where
  id : String
  chromosome : String
  regions : List Region
deriving DecidableEq

/-- `TranscriptRegion` from `structures.rs`. -/
structure TranscriptRegion where
  chromosome : String
  start : Nat
  «end» : Nat
  strand : Strand
  transcript_id : String
  region_id : String
  gene_id : Option String
deriving DecidableEq

/-- `Transcript::size` from `structures.rs`: the sum over all regions of
the inclusive length `end - start + 1`. -/
def Transcript.size (t : Transcript) : Nat :=
  (t.regions.map (fun r => r.«end» - r.start + 1)).sum

/-- Every way `Transcript::new` and `build_transcripts_from_regions` abort.
Constructors ending in `Abort` model a Rust `panic!` (which kills the whole
process); the others model an `anyhow::bail!` returning `Err`. Each
constructor records the data interpolated into the corresponding message. -/
inductive BuildError where
  | noRegions (id : String)
  | mixedStrands (id : String)
  | negativeWidthAbort (start stop : Nat) (rid : String) (strand : Strand)
  | overlapAbort (txId chromosome rid otherRid : String)
  | chromosomeMismatchAbort (txId chromosome1 chromosome2 : String)
deriving DecidableEq

/-- One step of insertion sort: place `x` before the first element `y`
with `le x y`. Used to realize Rust's stable `sort_by_key` / `sort_by`:
a stable sort's output is uniquely determined by the comparison, so this
insertion sort computes exactly what the Rust slice sort produces. -/
def insertLe (le : Region → Region → Bool) (x : Region) : List Region → List Region
  | [] => [x]
  | y :: ys => if le x y then x :: y :: ys else y :: insertLe le x ys

/-- Stable sort by `le` (insertion sort, processing the list from the right
so that earlier elements are inserted later and land before ties). -/
def sortLe (le : Region → Region → Bool) (l : List Region) : List Region :=
  l.foldr (insertLe le) []

/-- `regions.sort_by_key(|r| r.start)`: stable ascending sort by `start`. -/
def sortByStartAsc : List Region → List Region :=
  sortLe (fun a b => a.start ≤ b.start)

/-- `regions.sort_by(|a, b| b.start.cmp(&a.start))`: stable descending
sort by `start`. -/
def sortByStartDesc : List Region → List Region :=
  sortLe (fun a b => b.start ≤ a.start)

/-- The strand dispatch on lines 21-24 of `transcript_builder.rs`. -/
def sortRegions (s : Strand) (l : List Region) : List Region :=
  match s with
  | .Plus => sortByStartAsc l
  | .Minus => sortByStartDesc l

/-- Intersection test of the half-open intervals `[a.start, a.end + 1)` and
`[b.start, b.end + 1)` — what `IntervalTree::find` reports for the intervals
the loop in `Transcript::new` inserts. -/
def intersectsHalfOpen (a b : Region) : Bool :=
  a.start < b.«end» + 1 && b.start < a.«end» + 1

/-- `interval_tree.find(interval).next()`: some already-inserted region
whose half-open interval intersects that of `r`. The interval tree's
iteration order is internal to the `bio` crate; this model determinizes it
to the first hit in insertion order. -/
def findOverlap (inserted : List Region) (r : Region) : Option Region :=
  inserted.find? (fun o => intersectsHalfOpen o r)

/-- The `for region in &regions` loop of `Transcript::new` (lines 29-48):
per region, first the negative-width abort, then the overlap query against
the regions already inserted, then insertion. -/
def checkRegions (id chromosome : String) : List Region → List Region → Except BuildError Unit
  | _, [] => .ok ()
  | inserted, r :: rs =>
    if r.«end» < r.start then
      .error (.negativeWidthAbort r.start r.«end» r.id r.strand)
    else
      match findOverlap inserted r with
      | some o => .error (.overlapAbort id chromosome r.id o.id)
      | none => checkRegions id chromosome (inserted ++ [r]) rs

/-- `Transcript::new` from `transcript_builder.rs` (lines 9-55): reject an
empty region list, reject mixed strands, sort by strand orientation, then
run the width/overlap loop. The `println!` for suspiciously short regions
is output only and has no effect on the result. -/
def Transcript.new (id chromosome : String) (regions : List Region) :
    Except BuildError Transcript :=
  match regions with
  | [] => .error (.noRegions id)
  | first :: _ =>
    if regions.any (fun r => r.strand != first.strand) then
      .error (.mixedStrands id)
    else
      let sorted := sortRegions first.strand regions
      match checkRegions id chromosome [] sorted with
      | .error e => .error e
      | .ok _ => .ok ⟨id, chromosome, sorted⟩

/-- The grouping map of `build_transcripts_from_regions`: transcript id to
(chromosome of record, regions in arrival order). The Rust `HashMap` is
modelled by an association list keeping keys in first-insertion order. -/
abbrev GroupMap := List (String × (String × List Region))

/-- Append a region to the entry with the given key (the `entry.1.push`). -/
def pushRegion : GroupMap → String → Region → GroupMap
  | [], _, _ => []
  | (k, (c, rs)) :: rest, key, r =>
    if k = key then (k, (c, rs ++ [r])) :: rest
    else (k, (c, rs)) :: pushRegion rest key r

/-- One iteration of the grouping loop in `build_transcripts_from_regions`
(lines 65-86): find or create the entry for the transcript id, abort on a
chromosome mismatch, otherwise push the region. -/
def groupStep (m : GroupMap) (tr : TranscriptRegion) : Except BuildError GroupMap :=
  let r : Region := ⟨tr.region_id, tr.start, tr.«end», tr.strand⟩
  match m.find? (fun p => p.1 == tr.transcript_id) with
  | some (_, (chromosome, _)) =>
    if chromosome ≠ tr.chromosome then
      .error (.chromosomeMismatchAbort tr.transcript_id chromosome tr.chromosome)
    else
      .ok (pushRegion m tr.transcript_id r)
  | none => .ok (m ++ [(tr.transcript_id, (tr.chromosome, [r]))])

/-- The full grouping loop, threading the map through `groupStep`. -/
def groupLoop (m : GroupMap) : List TranscriptRegion → Except BuildError GroupMap
  | [] => .ok m
  | tr :: trs =>
    match groupStep m tr with
    | .error e => .error e
    | .ok m' => groupLoop m' trs

/-- The second loop of `build_transcripts_from_regions` (lines 89-96):
validate each group with `Transcript::new`, propagating the first error. -/
def buildAll : GroupMap → Except BuildError (List Transcript)
  | [] => .ok []
  | (id, (chromosome, regions)) :: rest =>
    match Transcript.new id chromosome regions with
    | .error e => .error e
    | .ok t =>
      match buildAll rest with
      | .error e => .error e
      | .ok ts => .ok (t :: ts)

/-- `build_transcripts_from_regions` from `transcript_builder.rs`
(lines 59-97). -/
def build_transcripts_from_regions (transcript_regions : List TranscriptRegion) :
    Except BuildError (List Transcript) :=
  match groupLoop [] transcript_regions with
  | .error e => .error e
  | .ok m => buildAll m

/-- Every way sequence extraction aborts. `missingChromosome` and
`outOfBounds` model `anyhow` errors; the `Abort` constructors model Rust
panics (`usize` subtraction underflow at `region.start - 1`, a slice index
out of range, and `transcript.regions[0]` on an empty region list). -/
inductive ExtractError where
  | missingChromosome (chromosome : String)
  | startUnderflowAbort (rid : String)
  | sliceOutOfRangeAbort (start stop len : Nat)
  | noRegionsAbort
  | outOfBounds (start stop : Nat) (txId : String)
deriving DecidableEq

/-- `genome.get(&transcript.chromosome)`: an association-list lookup
(FASTA record ids are unique, so the `HashMap` is faithfully an
association list). -/
def genomeGet (genome : List (String × List Char)) (chromosome : String) :
    Option (List Char) :=
  (genome.find? (fun p => p.1 == chromosome)).map (fun p => p.2)

/-- Base complement as applied by `bio::alphabets::dna::revcomp`,
restricted to the DNA alphabet this development uses (A/C/G/T in either
case and N); the `bio` crate is an external collaborator. -/
def complement (c : Char) : Char :=
  match c with
  | 'A' => 'T' | 'T' => 'A' | 'C' => 'G' | 'G' => 'C'
  | 'a' => 't' | 't' => 'a' | 'c' => 'g' | 'g' => 'c'
  | other => other

/-- `dna::revcomp`: reverse the sequence and complement every base. -/
def revcomp (s : List Char) : List Char :=
  (s.reverse).map complement

/-- `&chromosome_seq[s..e]`: defined exactly when `s ≤ e ≤ len`, the
condition under which the Rust slice does not panic. -/
def sliceSeq (seq : List Char) (s e : Nat) : Except ExtractError (List Char) :=
  if s ≤ e ∧ e ≤ seq.length then .ok ((seq.drop s).take (e - s))
  else .error (.sliceOutOfRangeAbort s e seq.length)

/-- The extraction loop of `extract_transcript_sequence` (lines 130-135):
per region, `start - 1` (a `usize` subtraction that panics on underflow
when `start = 0`; modelled as an explicit abort) and the unchecked slice
`[start - 1 .. end]`, concatenated in order. -/
def extractLoop (chromosomeSeq : List Char) : List Region → Except ExtractError (List Char)
  | [] => .ok []
  | r :: rs =>
    if r.start = 0 then .error (.startUnderflowAbort r.id)
    else
      match sliceSeq chromosomeSeq (r.start - 1) r.«end» with
      | .error e => .error e
      | .ok piece =>
        match extractLoop chromosomeSeq rs with
        | .error e => .error e
        | .ok rest => .ok (piece ++ rest)

/-- `extract_transcript_sequence` from `transcript_builder.rs`
(lines 112-143): look up the chromosome, re-sort the regions ascending by
start, concatenate the slices, then reverse-complement the whole buffer
once when `transcript.regions[0]` is on the minus strand. -/
def extract_transcript_sequence (genome : List (String × List Char))
    (transcript : Transcript) : Except ExtractError (List Char) :=
  match genomeGet genome transcript.chromosome with
  | none => .error (.missingChromosome transcript.chromosome)
  | some chromosomeSeq =>
    let sortedRegions := sortByStartAsc transcript.regions
    match extractLoop chromosomeSeq sortedRegions with
    | .error e => .error e
    | .ok sequence =>
      match transcript.regions with
      | [] => .error .noRegionsAbort
      | first :: _ =>
        .ok (if first.strand = .Minus then revcomp sequence else sequence)

/-- The `format!("[{}+:", index + 1)` start marker of
`_extract_transcript_sequence`. -/
def markerStart (s : Strand) (index : Nat) : List Char :=
  ("[" ++ toString (index + 1) ++ (match s with | .Plus => "+:" | .Minus => "-:")).data

/-- The `format!("{}+]", index + 1)` end marker of
`_extract_transcript_sequence`. -/
def markerEnd (s : Strand) (index : Nat) : List Char :=
  (toString (index + 1) ++ (match s with | .Plus => "+]" | .Minus => "-]")).data

/-- The extraction loop of `_extract_transcript_sequence` (lines 166-195):
`start - 1` (underflow aborts, as in the source's textual order), then the
explicit bounds check bailing with a message naming the transcript, then
markers and the (now safe) slice. -/
def uExtractLoop (txId : String) (chromosomeSeq : List Char) (index : Nat) :
    List Region → Except ExtractError (List Char)
  | [] => .ok []
  | r :: rs =>
    if r.start = 0 then .error (.startUnderflowAbort r.id)
    else if chromosomeSeq.length < r.«end» then
      .error (.outOfBounds r.start r.«end» txId)
    else
      match sliceSeq chromosomeSeq (r.start - 1) r.«end» with
      | .error e => .error e
      | .ok piece =>
        match uExtractLoop txId chromosomeSeq (index + 1) rs with
        | .error e => .error e
        | .ok rest =>
          .ok (markerStart r.strand index ++ piece ++ markerEnd r.strand index ++ rest)

/-- `_extract_transcript_sequence` from `transcript_builder.rs`
(lines 145-203): the unused variant that sorts by strand orientation,
checks each region against the chromosome length, and decorates the
output with per-region markers. -/
def _extract_transcript_sequence (genome : List (String × List Char))
    (transcript : Transcript) : Except ExtractError (List Char) :=
  match genomeGet genome transcript.chromosome with
  | none => .error (.missingChromosome transcript.chromosome)
  | some chromosomeSeq =>
    match transcript.regions with
    | [] => .error .noRegionsAbort
    | first :: _ =>
      let sortedRegions := sortRegions first.strand transcript.regions
      match uExtractLoop transcript.id chromosomeSeq 0 sortedRegions with
      | .error e => .error e
      | .ok sequence =>
        .ok (if first.strand = .Minus then revcomp sequence else sequence)

/-! ### Lemmas about the stable sort -/

theorem insertLe_perm (le : Region → Region → Bool) (x : Region) (l : List Region) :
    (insertLe le x l).Perm (x :: l) := by
  induction l with
  | nil => simp [insertLe]
  | cons y ys ih =>
    simp only [insertLe]
    by_cases h : le x y
    · simp [h]
    · simp only [h, if_neg]
      exact (ih.cons y).trans (List.Perm.swap x y ys)

theorem sortLe_perm (le : Region → Region → Bool) (l : List Region) :
    (sortLe le l).Perm l := by
  induction l with
  | nil => simp [sortLe]
  | cons x xs ih =>
    have : sortLe le (x :: xs) = insertLe le x (sortLe le xs) := rfl
    rw [this]
    exact (insertLe_perm le x (sortLe le xs)).trans (ih.cons x)

theorem mem_insertLe {le : Region → Region → Bool} {x a : Region} {l : List Region}
    (h : a ∈ insertLe le x l) : a = x ∨ a ∈ l := by
  have := (insertLe_perm le x l).mem_iff.mp h
  simpa using this

theorem pairwise_insertLe (le : Region → Region → Bool)
    (htot : ∀ a b, le a b = false → le b a = true)
    (htrans : ∀ a b c, le a b = true → le b c = true → le a c = true)
    (x : Region) {l : List Region}
    (h : l.Pairwise (fun a b => le a b = true)) :
    (insertLe le x l).Pairwise (fun a b => le a b = true) := by
  induction l with
  | nil => simp [insertLe]
  | cons y ys ih =>
    rcases List.pairwise_cons.mp h with ⟨hy, hys⟩
    simp only [insertLe]
    by_cases hxy : le x y = true
    · rw [if_pos hxy]
      refine List.pairwise_cons.mpr ⟨?_, h⟩
      intro b hb
      rcases List.mem_cons.mp hb with rfl | hb
      · exact hxy
      · exact htrans x y b hxy (hy b hb)
    · rw [if_neg hxy]
      refine List.pairwise_cons.mpr ⟨?_, ih hys⟩
      intro b hb
      rcases mem_insertLe hb with hbx | hb
      · rw [hbx]
        exact htot x y (Bool.eq_false_iff.mpr hxy)
      · exact hy b hb

theorem pairwise_sortLe (le : Region → Region → Bool)
    (htot : ∀ a b, le a b = false → le b a = true)
    (htrans : ∀ a b c, le a b = true → le b c = true → le a c = true)
    (l : List Region) :
    (sortLe le l).Pairwise (fun a b => le a b = true) := by
  induction l with
  | nil => simp [sortLe]
  | cons x xs ih => exact pairwise_insertLe le htot htrans x ih

theorem filter_insertLe (le : Region → Region → Bool) (p : Region → Bool)
    (x : Region) (l : List Region)
    (hp : p x = true → ∀ y, le x y = false → p y = false) :
    (insertLe le x l).filter p = if p x then x :: l.filter p else l.filter p := by
  induction l with
  | nil =>
    simp only [insertLe, List.filter]
    cases hpx : p x <;> simp [hpx]
  | cons y ys ih =>
    simp only [insertLe]
    by_cases hxy : le x y = true
    · rw [if_pos hxy]
      cases hpx : p x <;> simp [List.filter_cons, hpx]
    · rw [if_neg hxy]
      by_cases hpx : p x = true
      · have hpy : p y = false := hp hpx y (Bool.eq_false_iff.mpr hxy)
        simp [List.filter_cons, hpy, ih, hpx]
      · simp only [List.filter_cons, ih]
        simp [Bool.eq_false_iff.mpr hpx]

theorem filter_sortLe (le : Region → Region → Bool) (p : Region → Bool)
    (l : List Region)
    (hp : ∀ x, p x = true → ∀ y, le x y = false → p y = false) :
    (sortLe le l).filter p = l.filter p := by
  induction l with
  | nil => rfl
  | cons x xs ih =>
    have hstep : sortLe le (x :: xs) = insertLe le x (sortLe le xs) := rfl
    rw [hstep, filter_insertLe le p x (sortLe le xs) (hp x), ih, List.filter_cons]

theorem sortRegions_perm (s : Strand) (l : List Region) :
    (sortRegions s l).Perm l := by
  cases s <;> exact sortLe_perm _ l

theorem pairwise_sortByStartAsc (l : List Region) :
    (sortByStartAsc l).Pairwise (fun a b => a.start ≤ b.start) := by
  have h := pairwise_sortLe (fun a b => a.start ≤ b.start)
    (by intro a b hab; simp only [decide_eq_false_iff_not, decide_eq_true_eq] at hab ⊢; omega)
    (by intro a b c h1 h2; simp only [decide_eq_true_eq] at h1 h2 ⊢; omega) l
  exact h.imp (by intro a b hb; simpa using hb)

theorem pairwise_sortByStartDesc (l : List Region) :
    (sortByStartDesc l).Pairwise (fun a b => b.start ≤ a.start) := by
  have h := pairwise_sortLe (fun a b => b.start ≤ a.start)
    (by intro a b hab; simp only [decide_eq_false_iff_not, decide_eq_true_eq] at hab ⊢; omega)
    (by intro a b c h1 h2; simp only [decide_eq_true_eq] at h1 h2 ⊢; omega) l
  exact h.imp (by intro a b hb; simpa using hb)

theorem filter_start_sortByStartAsc (l : List Region) (s : Nat) :
    (sortByStartAsc l).filter (fun r => r.start == s) =
      l.filter (fun r => r.start == s) := by
  apply filter_sortLe
  intro x hx y hxy
  simp only [beq_iff_eq] at hx
  simp only [decide_eq_false_iff_not] at hxy
  simp only [beq_eq_false_iff_ne, ne_eq]
  omega

theorem filter_start_sortByStartDesc (l : List Region) (s : Nat) :
    (sortByStartDesc l).filter (fun r => r.start == s) =
      l.filter (fun r => r.start == s) := by
  apply filter_sortLe
  intro x hx y hxy
  simp only [beq_iff_eq] at hx
  simp only [decide_eq_false_iff_not] at hxy
  simp only [beq_eq_false_iff_ne, ne_eq]
  omega

/-! ### Lemmas about the overlap check -/

theorem intersects_comm (a b : Region) :
    intersectsHalfOpen a b = intersectsHalfOpen b a := by
  simp only [intersectsHalfOpen]
  rw [Bool.and_comm]

theorem intersects_eq_true_iff (a b : Region) :
    intersectsHalfOpen a b = true ↔ (a.start ≤ b.«end» ∧ b.start ≤ a.«end») := by
  simp only [intersectsHalfOpen, Bool.and_eq_true, decide_eq_true_eq]
  omega

theorem checkRegions_ok (id chromosome : String) :
    ∀ (l ins : List Region),
    (∀ r ∈ l, r.start ≤ r.«end») →
    (∀ r ∈ l, ∀ o ∈ ins, intersectsHalfOpen o r = false) →
    l.Pairwise (fun a b => intersectsHalfOpen a b = false) →
    checkRegions id chromosome ins l = .ok () := by
  intro l
  induction l with
  | nil => intro ins _ _ _; rfl
  | cons r rs ih =>
    intro ins hw hcross hpw
    have hwr : r.start ≤ r.«end» := hw r (by simp)
    have hnot : ¬ (r.«end» < r.start) := by omega
    have hfind : findOverlap ins r = none := by
      apply List.find?_eq_none.mpr
      intro o ho
      simp [hcross r (by simp) o ho]
    simp only [checkRegions, if_neg hnot, hfind]
    rcases List.pairwise_cons.mp hpw with ⟨hr, hrs⟩
    refine ih (ins ++ [r]) (fun x hx => hw x (by simp [hx])) ?_ hrs
    intro x hx o ho
    rcases List.mem_append.mp ho with ho | ho
    · exact hcross x (by simp [hx]) o ho
    · have : o = r := by simpa using ho
      rw [this]
      exact hr x hx

theorem checkRegions_error (id chromosome : String) :
    ∀ (l ins : List Region),
    (∀ r ∈ l, r.start ≤ r.«end») →
    ins.Pairwise (fun a b => intersectsHalfOpen a b = false) →
    ¬ (ins ++ l).Pairwise (fun a b => intersectsHalfOpen a b = false) →
    ∃ r o, [o, r].Sublist (ins ++ l) ∧ intersectsHalfOpen o r = true ∧
      checkRegions id chromosome ins l =
        .error (.overlapAbort id chromosome r.id o.id) := by
  intro l
  induction l with
  | nil =>
    intro ins _ hins hbad
    rw [List.append_nil] at hbad
    exact absurd hins hbad
  | cons r rs ih =>
    intro ins hw hins hbad
    have hwr : ¬ (r.«end» < r.start) := by
      have := hw r (by simp); omega
    cases hfind : findOverlap ins r with
    | some o =>
      have hfind' : ins.find? (fun o => intersectsHalfOpen o r) = some o := hfind
      refine ⟨r, o, ?_, by simpa using List.find?_some hfind', ?_⟩
      · have ho : o ∈ ins := List.mem_of_find?_eq_some hfind'
        have h1 : [o].Sublist ins := List.singleton_sublist.mpr ho
        have h2 : [r].Sublist (r :: rs) := List.singleton_sublist.mpr (by simp)
        simpa using h1.append h2
      · simp only [checkRegions, if_neg hwr, hfind]
    | none =>
      have hnone : ∀ o ∈ ins, intersectsHalfOpen o r = false := by
        intro o ho
        have := List.find?_eq_none.mp hfind o ho
        simpa using this
      have hins' : (ins ++ [r]).Pairwise (fun a b => intersectsHalfOpen a b = false) := by
        rw [List.pairwise_append]
        refine ⟨hins, by simp, ?_⟩
        intro a ha b hb
        have : b = r := by simpa using hb
        rw [this]
        exact hnone a ha
      have hbad' :
          ¬ ((ins ++ [r]) ++ rs).Pairwise (fun a b => intersectsHalfOpen a b = false) := by
        rw [List.append_assoc, List.singleton_append]
        exact hbad
      obtain ⟨r', o', hsub, hint, hres⟩ :=
        ih (ins ++ [r]) (fun x hx => hw x (by simp [hx])) hins' hbad'
      refine ⟨r', o', ?_, hint, ?_⟩
      · rw [List.append_assoc, List.singleton_append] at hsub
        exact hsub
      · simp only [checkRegions, if_neg hwr, hfind]
        exact hres

theorem checkRegions_ok_width (id chromosome : String) :
    ∀ (l ins : List Region), checkRegions id chromosome ins l = .ok () →
      ∀ r ∈ l, r.start ≤ r.«end» := by
  intro l
  induction l with
  | nil => intro ins _ r hr; cases hr
  | cons x xs ih =>
    intro ins h r hr
    by_cases hx : x.«end» < x.start
    · simp only [checkRegions, if_pos hx] at h
      simp at h
    · simp only [checkRegions, if_neg hx] at h
      cases hfind : findOverlap ins x with
      | some o => rw [hfind] at h; simp at h
      | none =>
        rw [hfind] at h
        rcases List.mem_cons.mp hr with rfl | hr
        · omega
        · exact ih (ins ++ [x]) h r hr

/-! ### Inversion for `Transcript.new` -/

theorem new_ok_elim {id chromosome : String} {regions : List Region} {t : Transcript}
    (h : Transcript.new id chromosome regions = .ok t) :
    ∃ first rest, regions = first :: rest ∧
      (∀ r ∈ regions, r.strand = first.strand) ∧
      t = ⟨id, chromosome, sortRegions first.strand regions⟩ ∧
      checkRegions id chromosome [] (sortRegions first.strand regions) = .ok () := by
  rcases regions with _ | ⟨first, rest⟩
  · simp [Transcript.new] at h
  · simp only [Transcript.new] at h
    by_cases hany : ((first :: rest).any (fun r => r.strand != first.strand)) = true
    · rw [if_pos hany] at h
      simp at h
    · rw [if_neg hany] at h
      cases hchk : checkRegions id chromosome []
          (sortRegions first.strand (first :: rest)) with
      | error e => rw [hchk] at h; simp at h
      | ok u =>
        rw [hchk] at h
        cases u
        refine ⟨first, rest, rfl, ?_, ?_, hchk⟩
        · intro r hr
          simp only [List.any_eq_true, bne_iff_ne, ne_eq, not_exists, not_and,
            not_not] at hany
          exact hany r hr
        · injection h with h'
          exact h'.symm

/-! ### Lemmas about sequence extraction -/

theorem revcomp_length (s : List Char) : (revcomp s).length = s.length := by
  simp [revcomp]

theorem extractLoop_ok (seq : List Char) :
    ∀ l : List Region,
    (∀ r ∈ l, 1 ≤ r.start ∧ r.start ≤ r.«end» ∧ r.«end» ≤ seq.length) →
    ∃ s, extractLoop seq l = .ok s ∧
      s.length = (l.map (fun r => r.«end» - r.start + 1)).sum := by
  intro l
  induction l with
  | nil => exact fun _ => ⟨[], rfl, rfl⟩
  | cons r rs ih =>
    intro h
    obtain ⟨h1, h2, h3⟩ := h r (by simp)
    obtain ⟨s', hs', hlen'⟩ := ih (fun x hx => h x (by simp [hx]))
    have h0 : ¬ (r.start = 0) := by omega
    have hcond : r.start - 1 ≤ r.«end» ∧ r.«end» ≤ seq.length := by omega
    refine ⟨(seq.drop (r.start - 1)).take (r.«end» - (r.start - 1)) ++ s', ?_, ?_⟩
    · simp only [extractLoop, if_neg h0, sliceSeq, if_pos hcond, hs']
    · simp only [List.length_append, List.length_take, List.length_drop, hlen',
        List.map_cons, List.sum_cons]
      omega

theorem extractLoop_error_slice (seq : List Char) :
    ∀ l : List Region, (∀ r ∈ l, 1 ≤ r.start) →
    ∀ e, extractLoop seq l = .error e →
    ∃ s t, e = .sliceOutOfRangeAbort s t seq.length := by
  intro l
  induction l with
  | nil => intro _ e he; simp [extractLoop] at he
  | cons r rs ih =>
    intro h e he
    have h0 : ¬ (r.start = 0) := by
      have := h r (by simp); omega
    simp only [extractLoop, if_neg h0] at he
    by_cases hcond : r.start - 1 ≤ r.«end» ∧ r.«end» ≤ seq.length
    · simp only [sliceSeq, if_pos hcond] at he
      cases hrec : extractLoop seq rs with
      | error e' =>
        rw [hrec] at he
        injection he with he'
        exact he' ▸ ih (fun x hx => h x (by simp [hx])) e' hrec
      | ok s' => rw [hrec] at he; simp at he
    · simp only [sliceSeq, if_neg hcond] at he
      injection he with he'
      exact ⟨r.start - 1, r.«end», he'.symm⟩

theorem extractLoop_ok_bound (seq : List Char) :
    ∀ l : List Region, ∀ s, extractLoop seq l = .ok s →
    ∀ r ∈ l, r.«end» ≤ seq.length := by
  intro l
  induction l with
  | nil => intro s _ r hr; cases hr
  | cons x xs ih =>
    intro s h r hr
    by_cases h0 : x.start = 0
    · simp [extractLoop, h0] at h
    · simp only [extractLoop, if_neg h0] at h
      by_cases hcond : x.start - 1 ≤ x.«end» ∧ x.«end» ≤ seq.length
      · simp only [sliceSeq, if_pos hcond] at h
        cases hrec : extractLoop seq xs with
        | error e => rw [hrec] at h; simp at h
        | ok s' =>
          rw [hrec] at h
          rcases List.mem_cons.mp hr with rfl | hr
          · exact hcond.2
          · exact ih s' hrec r hr
      · simp only [sliceSeq] at h
        rw [if_neg hcond] at h
        simp at h

theorem uExtractLoop_bad (txId : String) (seq : List Char) :
    ∀ (l : List Region) (i : Nat),
    (∀ r ∈ l, 1 ≤ r.start ∧ r.start ≤ r.«end») →
    (∃ r ∈ l, seq.length < r.«end») →
    ∃ a b, uExtractLoop txId seq i l = .error (.outOfBounds a b txId) := by
  intro l
  induction l with
  | nil => intro i _ hbad; simp at hbad
  | cons r rs ih =>
    intro i h hbad
    obtain ⟨h1, h2⟩ := h r (by simp)
    have h0 : ¬ (r.start = 0) := by omega
    by_cases hb : seq.length < r.«end»
    · exact ⟨r.start, r.«end», by simp only [uExtractLoop, if_neg h0, if_pos hb]⟩
    · have hbad' : ∃ x ∈ rs, seq.length < x.«end» := by
        rcases hbad with ⟨x, hx, hxl⟩
        rcases List.mem_cons.mp hx with rfl | hx
        · exact absurd hxl hb
        · exact ⟨x, hx, hxl⟩
      have hcond : r.start - 1 ≤ r.«end» ∧ r.«end» ≤ seq.length := by omega
      obtain ⟨a, b, hres⟩ := ih (i + 1) (fun x hx => h x (by simp [hx])) hbad'
      refine ⟨a, b, ?_⟩
      simp only [uExtractLoop, if_neg h0, if_neg hb, sliceSeq, if_pos hcond, hres]

/-! ### Lemmas about the grouping loop -/

theorem pushRegion_keys (m : GroupMap) (key : String) (r : Region) :
    (pushRegion m key r).map Prod.fst = m.map Prod.fst := by
  induction m with
  | nil => rfl
  | cons p rest ih =>
    obtain ⟨k, c, rs⟩ := p
    by_cases hk : k = key
    · simp [pushRegion, hk]
    · simp [pushRegion, hk, ih]

theorem groupStep_nodup {m m' : GroupMap} {tr : TranscriptRegion}
    (h : groupStep m tr = .ok m') (hm : (m.map Prod.fst).Nodup) :
    (m'.map Prod.fst).Nodup := by
  simp only [groupStep] at h
  split at h
  · split at h
    · simp at h
    · injection h with h'
      rw [← h', pushRegion_keys]
      exact hm
  · rename_i hfind
    injection h with h'
    rw [← h']
    have hnot : tr.transcript_id ∉ m.map Prod.fst := by
      intro hin
      rcases List.mem_map.mp hin with ⟨p, hp, hp1⟩
      have := List.find?_eq_none.mp hfind p hp
      simp [hp1] at this
    simp only [List.map_append, List.map_cons, List.map_nil]
    rw [List.nodup_append]
    refine ⟨hm, by simp, ?_⟩
    intro a ha hb
    have hab : a = tr.transcript_id := by simpa using hb
    exact hnot (hab ▸ ha)

theorem groupLoop_nodup :
    ∀ (trs : List TranscriptRegion) (m m' : GroupMap),
    (m.map Prod.fst).Nodup → groupLoop m trs = .ok m' →
    (m'.map Prod.fst).Nodup := by
  intro trs
  induction trs with
  | nil =>
    intro m m' hm h
    injection h with h'
    exact h' ▸ hm
  | cons tr rest ih =>
    intro m m' hm h
    simp only [groupLoop] at h
    cases hstep : groupStep m tr with
    | error e => rw [hstep] at h; simp at h
    | ok m1 =>
      rw [hstep] at h
      exact ih m1 m' (groupStep_nodup hstep hm) h

theorem find?_of_mem_nodup {m : GroupMap} {id : String} {v : String × List Region}
    (hmem : (id, v) ∈ m) (hnd : (m.map Prod.fst).Nodup) :
    m.find? (fun p => p.1 == id) = some (id, v) := by
  induction m with
  | nil => cases hmem
  | cons p rest ih =>
    rcases List.mem_cons.mp hmem with heq | hmem
    · rw [← heq]
      simp [List.find?]
    · have hid : id ∈ rest.map Prod.fst := by
        exact List.mem_map.mpr ⟨(id, v), hmem, rfl⟩
      have hnd' : (p.1 :: rest.map Prod.fst).Nodup := by simpa using hnd
      rcases List.nodup_cons.mp hnd' with ⟨hp1, hrest⟩
      have hne : (p.1 == id) = false := by
        simp only [beq_eq_false_iff_ne, ne_eq]
        intro hcontra
        exact hp1 (hcontra ▸ hid)
      rw [List.find?_cons_of_neg _ (by simp [hne]), ih hmem hrest]

theorem buildAll_error_of_mem :
    ∀ (m : GroupMap) (id chromosome : String) (regions : List Region) (e : BuildError),
    (id, (chromosome, regions)) ∈ m →
    Transcript.new id chromosome regions = .error e →
    ∃ f, buildAll m = .error f := by
  intro m
  induction m with
  | nil => intro _ _ _ _ h _; cases h
  | cons p rest ih =>
    intro id c regs e hmem herr
    obtain ⟨k, ck, rsk⟩ := p
    cases hnew : Transcript.new k ck rsk with
    | error f => exact ⟨f, by simp only [buildAll, hnew]⟩
    | ok t =>
      rcases List.mem_cons.mp hmem with heq | hmem
      · simp only [Prod.mk.injEq] at heq
        obtain ⟨h1, h2, h3⟩ := heq
        rw [h1, h2, h3, hnew] at herr
        simp at herr
      · obtain ⟨f, hf⟩ := ih id c regs e hmem herr
        refine ⟨f, ?_⟩
        simp only [buildAll, hnew, hf]

theorem groupLoop_append :
    ∀ (l1 l2 : List TranscriptRegion) (m : GroupMap),
    groupLoop m (l1 ++ l2) =
      match groupLoop m l1 with
      | .error e => .error e
      | .ok m' => groupLoop m' l2 := by
  intro l1
  induction l1 with
  | nil => intro l2 m; rfl
  | cons tr trs ih =>
    intro l2 m
    simp only [List.cons_append, groupLoop]
    cases hstep : groupStep m tr with
    | error e => rfl
    | ok m1 => exact ih l2 m1

/-! ### Claims -/

/-- C3: for every region list accepted by `Transcript::new`, the regions of
the returned transcript are stored sorted ascending by start when the
strand is `Plus` (Forward) and descending by start when the strand is
`Minus` (Reverse), and regions with equal start keep their original
arrival order (the sort is stable: the subsequence of regions with any
given start value is unchanged). -/
theorem claim_C3 {id chromosome : String} {regions : List Region} {t : Transcript}
    (h : Transcript.new id chromosome regions = .ok t) :
    (∀ first rest, regions = first :: rest →
      (first.strand = .Plus → t.regions.Pairwise (fun a b => a.start ≤ b.start)) ∧
      (first.strand = .Minus → t.regions.Pairwise (fun a b => b.start ≤ a.start))) ∧
    (∀ s, t.regions.filter (fun r => r.start == s) =
      regions.filter (fun r => r.start == s)) := by
  obtain ⟨f, rest, hcons, hstr, ht, hchk⟩ := new_ok_elim h
  subst ht
  constructor
  · intro first rest' hre
    have hff : f = first := by
      rw [hcons] at hre
      simp only [List.cons.injEq] at hre
      exact hre.1
    subst hff
    constructor
    · intro hplus
      simp only [sortRegions, hplus]
      exact pairwise_sortByStartAsc regions
    · intro hminus
      simp only [sortRegions, hminus]
      exact pairwise_sortByStartDesc regions
  · intro s
    cases hfs : f.strand
    · simp only [sortRegions, hfs]
      exact filter_start_sortByStartAsc regions s
    · simp only [sortRegions, hfs]
      exact filter_start_sortByStartDesc regions s

/-- Witness for C3 at a concrete input: an unsorted Forward-strand list is
accepted and the claim's conclusion holds for it. -/
theorem claim_C3_witness :
    (Transcript.new "tx" "chr1"
        [⟨"r1", 20, 25, .Plus⟩, ⟨"r2", 10, 15, .Plus⟩] =
      .ok ⟨"tx", "chr1", [⟨"r2", 10, 15, .Plus⟩, ⟨"r1", 20, 25, .Plus⟩]⟩) ∧
    ((∀ first rest,
        ([⟨"r1", 20, 25, .Plus⟩, ⟨"r2", 10, 15, .Plus⟩] : List Region) = first :: rest →
        (first.strand = .Plus →
          (Transcript.mk "tx" "chr1"
              [⟨"r2", 10, 15, .Plus⟩, ⟨"r1", 20, 25, .Plus⟩]).regions.Pairwise
            (fun a b => a.start ≤ b.start)) ∧
        (first.strand = .Minus →
          (Transcript.mk "tx" "chr1"
              [⟨"r2", 10, 15, .Plus⟩, ⟨"r1", 20, 25, .Plus⟩]).regions.Pairwise
            (fun a b => b.start ≤ a.start))) ∧
      (∀ s, (Transcript.mk "tx" "chr1"
            [⟨"r2", 10, 15, .Plus⟩, ⟨"r1", 20, 25, .Plus⟩]).regions.filter
            (fun r => r.start == s) =
          ([⟨"r1", 20, 25, .Plus⟩, ⟨"r2", 10, 15, .Plus⟩] : List Region).filter
            (fun r => r.start == s))) :=
  ⟨rfl, claim_C3 rfl⟩

/-- C9: for every region list accepted by `Transcript::new`, the returned
transcript's region list is exactly a permutation of the input list (no
region is added, dropped, or modified), and the returned id and chromosome
equal the arguments passed in. -/
theorem claim_C9 {id chromosome : String} {regions : List Region} {t : Transcript}
    (h : Transcript.new id chromosome regions = .ok t) :
    t.id = id ∧ t.chromosome = chromosome ∧ t.regions.Perm regions := by
  obtain ⟨f, rest, hcons, hstr, ht, hchk⟩ := new_ok_elim h
  subst ht
  exact ⟨rfl, rfl, sortRegions_perm f.strand regions⟩

/-- Witness for C9 at a concrete input. -/
theorem claim_C9_witness :
    (Transcript.new "t9" "chrX"
        [⟨"a", 30, 40, .Minus⟩, ⟨"b", 5, 9, .Minus⟩] =
      .ok ⟨"t9", "chrX", [⟨"a", 30, 40, .Minus⟩, ⟨"b", 5, 9, .Minus⟩]⟩) ∧
    ((Transcript.mk "t9" "chrX"
        [⟨"a", 30, 40, .Minus⟩, ⟨"b", 5, 9, .Minus⟩]).id = "t9" ∧
      (Transcript.mk "t9" "chrX"
        [⟨"a", 30, 40, .Minus⟩, ⟨"b", 5, 9, .Minus⟩]).chromosome = "chrX" ∧
      (Transcript.mk "t9" "chrX"
          [⟨"a", 30, 40, .Minus⟩, ⟨"b", 5, 9, .Minus⟩]).regions.Perm
        [⟨"a", 30, 40, .Minus⟩, ⟨"b", 5, 9, .Minus⟩]) :=
  ⟨rfl, claim_C9 rfl⟩

/-- The non-overlap relation used by C1's statement, as the code's Bool
test equal to `false`. -/
theorem intersects_symmetric :
    Symmetric (fun a b : Region => intersectsHalfOpen a b = false) := by
  intro a b h
  rw [intersects_comm]
  exact h

/-- C1: for a non-empty, uniform-strand, non-negative-width region list,
`Transcript::new` succeeds when the closed intervals are pairwise
disjoint, and when the list contains two regions whose closed intervals
overlap it fails with an overlap abort naming both region identifiers
(the Rust code raises this as a `panic!`, modelled as the error value
`overlapAbort`), so no transcript is produced for that list. -/
theorem claim_C1 (id chromosome : String) (regions : List Region)
    (first : Region) (rest : List Region)
    (hcons : regions = first :: rest)
    (hstrand : ∀ r ∈ regions, r.strand = first.strand)
    (hwidth : ∀ r ∈ regions, r.start ≤ r.«end») :
    (regions.Pairwise (fun a b => ¬ (a.start ≤ b.«end» ∧ b.start ≤ a.«end»)) →
      Transcript.new id chromosome regions =
        .ok ⟨id, chromosome, sortRegions first.strand regions⟩) ∧
    ((∃ a b rest2, regions.Perm (a :: b :: rest2) ∧
        a.start ≤ b.«end» ∧ b.start ≤ a.«end») →
      ∃ r o rest2, regions.Perm (o :: r :: rest2) ∧
        o.start ≤ r.«end» ∧ r.start ≤ o.«end» ∧
        Transcript.new id chromosome regions =
          .error (.overlapAbort id chromosome r.id o.id)) := by
  subst hcons
  have hany : ((first :: rest).any (fun r => r.strand != first.strand)) = false := by
    simp only [List.any_eq_false, bne_iff_ne, ne_eq, not_not]
    exact hstrand
  have hwsorted : ∀ r ∈ sortRegions first.strand (first :: rest), r.start ≤ r.«end» :=
    fun r hr => hwidth r ((sortRegions_perm first.strand (first :: rest)).mem_iff.mp hr)
  constructor
  · intro hdisj
    have hdisjB : (first :: rest).Pairwise
        (fun a b => intersectsHalfOpen a b = false) := by
      refine hdisj.imp ?_
      intro a b hab
      rw [Bool.eq_false_iff]
      intro htrue
      exact hab (intersects_eq_true_iff a b |>.mp htrue)
    have hsorted : (sortRegions first.strand (first :: rest)).Pairwise
        (fun a b => intersectsHalfOpen a b = false) :=
      ((sortRegions_perm first.strand (first :: rest)).pairwise_iff (fun hxy => intersects_symmetric hxy)).mpr hdisjB
    have hchk := checkRegions_ok id chromosome
      (sortRegions first.strand (first :: rest)) [] hwsorted
      (by intro r _ o ho; cases ho) hsorted
    simp only [Transcript.new, hany, Bool.false_eq_true, if_false, hchk]
  · rintro ⟨a, b, rest2, hperm, hab1, hab2⟩
    have hnp : ¬ (first :: rest).Pairwise
        (fun a b => intersectsHalfOpen a b = false) := by
      intro hp
      have habs := (hperm.pairwise_iff (fun hxy => intersects_symmetric hxy)).mp hp
      rcases List.pairwise_cons.mp habs with ⟨hhead, _⟩
      have hfalse : intersectsHalfOpen a b = false := hhead b (by simp)
      have htrue : intersectsHalfOpen a b = true :=
        (intersects_eq_true_iff a b).mpr ⟨hab1, hab2⟩
      rw [htrue] at hfalse
      simp at hfalse
    have hnps : ¬ ([] ++ sortRegions first.strand (first :: rest)).Pairwise
        (fun a b => intersectsHalfOpen a b = false) := by
      rw [List.nil_append]
      intro hp
      exact hnp (((sortRegions_perm first.strand (first :: rest)).pairwise_iff (fun hxy => intersects_symmetric hxy)).mp hp)
    obtain ⟨r, o, hsub, hint, hres⟩ := checkRegions_error id chromosome
      (sortRegions first.strand (first :: rest)) [] hwsorted (by simp) hnps
    rw [List.nil_append] at hsub
    obtain ⟨tail, htail⟩ := hsub.exists_perm_append
    refine ⟨r, o, tail, ?_, ?_, ?_, ?_⟩
    · exact ((sortRegions_perm first.strand (first :: rest)).symm.trans htail)
    · exact ((intersects_eq_true_iff o r).mp hint).1
    · exact ((intersects_eq_true_iff o r).mp hint).2
    · simp only [Transcript.new, hany, Bool.false_eq_true, if_false, hres]

/-- Witness for C1: the spec's own example `[10,20]` and `[15,25]` triggers
the overlap failure naming both region ids, and a disjoint pair is
accepted. -/
theorem claim_C1_witness :
    (Transcript.new "td" "chr1"
        [⟨"d1", 1, 4, .Plus⟩, ⟨"d2", 10, 12, .Plus⟩] =
      .ok ⟨"td", "chr1",
        sortRegions Strand.Plus [⟨"d1", 1, 4, .Plus⟩, ⟨"d2", 10, 12, .Plus⟩]⟩) ∧
    (∃ r o rest2,
      ([⟨"r1", 10, 20, .Plus⟩, ⟨"r2", 15, 25, .Plus⟩] : List Region).Perm
        (o :: r :: rest2) ∧
      o.start ≤ r.«end» ∧ r.start ≤ o.«end» ∧
      Transcript.new "tx" "chr1" [⟨"r1", 10, 20, .Plus⟩, ⟨"r2", 15, 25, .Plus⟩] =
        .error (.overlapAbort "tx" "chr1" r.id o.id)) :=
  ⟨(claim_C1 "td" "chr1" _ _ _ rfl (by decide) (by decide)).1
      (by simp [List.pairwise_cons]),
    (claim_C1 "tx" "chr1" _ _ _ rfl (by decide) (by decide)).2
      ⟨⟨"r1", 10, 20, .Plus⟩, ⟨"r2", 15, 25, .Plus⟩, [], List.Perm.refl _,
        by decide, by decide⟩⟩

theorem extractLoop_error_not_missing (seq : List Char) :
    ∀ (l : List Region) (e : ExtractError) (c : String),
    extractLoop seq l = .error e → e ≠ .missingChromosome c := by
  intro l
  induction l with
  | nil => intro e c h; simp [extractLoop] at h
  | cons r rs ih =>
    intro e c h
    by_cases h0 : r.start = 0
    · simp only [extractLoop, if_pos h0] at h
      injection h with h'
      rw [← h']
      intro hcontra
      cases hcontra
    · simp only [extractLoop, if_neg h0] at h
      by_cases hcond : r.start - 1 ≤ r.«end» ∧ r.«end» ≤ seq.length
      · simp only [sliceSeq] at h
        rw [if_pos hcond] at h
        cases hrec : extractLoop seq rs with
        | error e' =>
          rw [hrec] at h
          injection h with h'
          exact h' ▸ ih e' c hrec
        | ok s' => rw [hrec] at h; simp at h
      · simp only [sliceSeq] at h
        rw [if_neg hcond] at h
        injection h with h'
        rw [← h']
        intro hcontra
        cases hcontra

/-- C7: for every validated transcript whose regions lie within its
chromosome's sequence, extraction succeeds and the returned sequence's
length equals `Transcript::size`, the sum over the regions of
`end - start + 1` (the reverse-complement step preserves length, so this
holds before and after it). -/
theorem claim_C7 {id chromosome : String} {regions : List Region} {t : Transcript}
    (genome : List (String × List Char)) (seq : List Char)
    (ht : Transcript.new id chromosome regions = .ok t)
    (hg : genomeGet genome t.chromosome = some seq)
    (hin : ∀ r ∈ t.regions, 1 ≤ r.start ∧ r.«end» ≤ seq.length) :
    ∃ s, extract_transcript_sequence genome t = .ok s ∧ s.length = t.size := by
  obtain ⟨f, rest, hcons, hstr, htt, hchk⟩ := new_ok_elim ht
  have hreg : t.regions = sortRegions f.strand regions := by rw [htt]
  have hwid : ∀ r ∈ t.regions, r.start ≤ r.«end» := by
    rw [hreg]
    exact checkRegions_ok_width id chromosome _ [] hchk
  have hperm : (sortByStartAsc t.regions).Perm t.regions :=
    sortLe_perm (fun a b => a.start ≤ b.start) t.regions
  have hloopin : ∀ r ∈ sortByStartAsc t.regions,
      1 ≤ r.start ∧ r.start ≤ r.«end» ∧ r.«end» ≤ seq.length := by
    intro r hr
    have hr' := hperm.mem_iff.mp hr
    exact ⟨(hin r hr').1, hwid r hr', (hin r hr').2⟩
  obtain ⟨s, hs, hlen⟩ := extractLoop_ok seq (sortByStartAsc t.regions) hloopin
  have hsum : ((sortByStartAsc t.regions).map
      (fun r => r.«end» - r.start + 1)).sum = t.size := by
    unfold Transcript.size
    exact List.Perm.sum_eq (hperm.map _)
  have hne : t.regions ≠ [] := by
    intro hnil
    have hl := (sortRegions_perm f.strand regions).length_eq
    rw [← hreg, hnil, hcons] at hl
    simp at hl
  cases hre : t.regions with
  | nil => exact absurd hre hne
  | cons r0 rrest =>
    rw [hre] at hs
    refine ⟨if r0.strand = .Minus then revcomp s else s, ?_, ?_⟩
    · simp only [extract_transcript_sequence, hg, hre, hs]
    · have hslen : s.length = t.size := hlen.trans hsum
      by_cases hm : r0.strand = .Minus
      · simp [hm, revcomp_length, hslen]
      · simp [hm, hslen]

/-- Witness for C7 at the repository's own plus-strand test input. -/
theorem claim_C7_witness :
    (Transcript.new "tx1" "chr1"
        [⟨"r1", 1, 4, .Plus⟩, ⟨"r2", 5, 8, .Plus⟩] =
      .ok ⟨"tx1", "chr1", [⟨"r1", 1, 4, .Plus⟩, ⟨"r2", 5, 8, .Plus⟩]⟩) ∧
    (∃ s, extract_transcript_sequence [("chr1", "ACGTAACCGGTT".data)]
        ⟨"tx1", "chr1", [⟨"r1", 1, 4, .Plus⟩, ⟨"r2", 5, 8, .Plus⟩]⟩ = .ok s ∧
      s.length =
        (Transcript.mk "tx1" "chr1"
          [⟨"r1", 1, 4, .Plus⟩, ⟨"r2", 5, 8, .Plus⟩]).size) :=
  ⟨rfl, @claim_C7 "tx1" "chr1" [⟨"r1", 1, 4, .Plus⟩, ⟨"r2", 5, 8, .Plus⟩]
    ⟨"tx1", "chr1", [⟨"r1", 1, 4, .Plus⟩, ⟨"r2", 5, 8, .Plus⟩]⟩
    [("chr1", "ACGTAACCGGTT".data)] ("ACGTAACCGGTT".data) rfl rfl (by decide)⟩

/-- C8: extraction returns the missing-chromosome error (naming the
transcript's chromosome) exactly when the chromosome is not a key of the
genome mapping; when it is present and the transcript's regions are
non-empty and in range, extraction returns a sequence, not an error. -/
theorem claim_C8 (genome : List (String × List Char)) (t : Transcript) :
    (extract_transcript_sequence genome t =
        .error (.missingChromosome t.chromosome) ↔
      genomeGet genome t.chromosome = none) ∧
    (∀ seq, genomeGet genome t.chromosome = some seq → t.regions ≠ [] →
      (∀ r ∈ t.regions, 1 ≤ r.start ∧ r.start ≤ r.«end» ∧ r.«end» ≤ seq.length) →
      ∃ s, extract_transcript_sequence genome t = .ok s) := by
  constructor
  · constructor
    · intro h
      cases hg : genomeGet genome t.chromosome with
      | none => rfl
      | some seq =>
        exfalso
        simp only [extract_transcript_sequence, hg] at h
        cases hloop : extractLoop seq (sortByStartAsc t.regions) with
        | error e =>
          rw [hloop] at h
          injection h with h'
          exact extractLoop_error_not_missing seq _ e t.chromosome hloop h'
        | ok s =>
          rw [hloop] at h
          cases hre : t.regions with
          | nil => rw [hre] at h; injection h with h'; cases h'
          | cons r0 rrest => rw [hre] at h; simp at h
    · intro h
      simp only [extract_transcript_sequence, h]
  · intro seq hg hne hin
    have hperm : (sortByStartAsc t.regions).Perm t.regions :=
      sortLe_perm (fun a b => a.start ≤ b.start) t.regions
    obtain ⟨s, hs, _⟩ := extractLoop_ok seq (sortByStartAsc t.regions)
      (fun r hr => hin r (hperm.mem_iff.mp hr))
    cases hre : t.regions with
    | nil => exact absurd hre hne
    | cons r0 rrest =>
      rw [hre] at hs
      refine ⟨if r0.strand = .Minus then revcomp s else s, ?_⟩
      simp only [extract_transcript_sequence, hg, hre, hs]

/-- Witness for C8: the iff at a genome missing the chromosome, and the
success case at a present chromosome. -/
theorem claim_C8_witness :
    ((extract_transcript_sequence [("chr2", "ACGT".data)]
        ⟨"tw", "chr1", [⟨"w1", 1, 2, .Plus⟩]⟩ =
          .error (.missingChromosome "chr1") ↔
      genomeGet [("chr2", "ACGT".data)] "chr1" = none) ∧
    (∀ seq, genomeGet [("chr2", "ACGT".data)] "chr1" = some seq →
      ([⟨"w1", 1, 2, .Plus⟩] : List Region) ≠ [] →
      (∀ r ∈ ([⟨"w1", 1, 2, .Plus⟩] : List Region),
        1 ≤ r.start ∧ r.start ≤ r.«end» ∧ r.«end» ≤ seq.length) →
      ∃ s, extract_transcript_sequence [("chr2", "ACGT".data)]
        ⟨"tw", "chr1", [⟨"w1", 1, 2, .Plus⟩]⟩ = .ok s)) ∧
    (genomeGet [("chr1", "ACGT".data)] "chr1" = some ("ACGT".data) ∧
      ∃ s, extract_transcript_sequence [("chr1", "ACGT".data)]
        ⟨"tw", "chr1", [⟨"w1", 1, 2, .Plus⟩]⟩ = .ok s) :=
  ⟨claim_C8 [("chr2", "ACGT".data)] ⟨"tw", "chr1", [⟨"w1", 1, 2, .Plus⟩]⟩,
    ⟨rfl, (claim_C8 [("chr1", "ACGT".data)]
        ⟨"tw", "chr1", [⟨"w1", 1, 2, .Plus⟩]⟩).2 ("ACGT".data) rfl (by decide)
      (by decide)⟩⟩

/-- C10: when every region of a transcript has `start ≥ 1`, the 0-based
conversion `start - 1` inside extraction never underflows (the underflow
abort is unreachable); and a region with `start = 0` is not detected by
any check of `Transcript::new`, so `start ≥ 1` is a genuine precondition
of extraction at the public interface. -/
theorem claim_C10 :
    (∀ (genome : List (String × List Char)) (t : Transcript),
      (∀ r ∈ t.regions, 1 ≤ r.start) →
      ∀ rid, extract_transcript_sequence genome t ≠
        .error (.startUnderflowAbort rid)) ∧
    (Transcript.new "tx" "chr1" [⟨"r1", 0, 5, .Plus⟩] =
      .ok ⟨"tx", "chr1", [⟨"r1", 0, 5, .Plus⟩]⟩) := by
  constructor
  · intro genome t h rid hcontra
    cases hg : genomeGet genome t.chromosome with
    | none =>
      simp only [extract_transcript_sequence, hg] at hcontra
      injection hcontra with h'
      cases h'
    | some seq =>
      simp only [extract_transcript_sequence, hg] at hcontra
      have hperm : (sortByStartAsc t.regions).Perm t.regions :=
        sortLe_perm (fun a b => a.start ≤ b.start) t.regions
      cases hloop : extractLoop seq (sortByStartAsc t.regions) with
      | error e =>
        rw [hloop] at hcontra
        injection hcontra with h'
        obtain ⟨s', t', hshape⟩ := extractLoop_error_slice seq
          (sortByStartAsc t.regions)
          (fun r hr => h r (hperm.mem_iff.mp hr)) e hloop
        rw [h'] at hshape
        cases hshape
      | ok s =>
        rw [hloop] at hcontra
        cases hre : t.regions with
        | nil => rw [hre] at hcontra; injection hcontra with h'; cases h'
        | cons r0 rrest => rw [hre] at hcontra; simp at hcontra
  · rfl

/-- Witness for C10: at a concrete genome and start-valid transcript, the
underflow abort cannot be the result. -/
theorem claim_C10_witness :
    (∀ r ∈ ([⟨"w1", 1, 2, .Plus⟩] : List Region), 1 ≤ r.start) ∧
    extract_transcript_sequence [("chr1", "ACGT".data)]
        ⟨"tw", "chr1", [⟨"w1", 1, 2, .Plus⟩]⟩ ≠
      .error (.startUnderflowAbort "w1") :=
  ⟨by decide, claim_C10.1 [("chr1", "ACGT".data)]
    ⟨"tw", "chr1", [⟨"w1", 1, 2, .Plus⟩]⟩ (by decide) "w1"⟩

theorem pairwise_lt_of_pairwise_le_nodup {l : List Region}
    (hle : l.Pairwise (fun a b => a.start ≤ b.start))
    (hnd : (l.map (fun r => r.start)).Nodup) :
    l.Pairwise (fun a b => a.start < b.start) := by
  have hne : l.Pairwise (fun a b => a.start ≠ b.start) := List.pairwise_map.mp hnd
  exact (hle.and hne).imp (fun h => lt_of_le_of_ne h.1 h.2)

/-- Two lists with the same multiset of regions and pairwise-distinct
start coordinates have the same ascending sort: the stable sort's output
is determined by the contents alone when no ties exist. -/
theorem sortByStartAsc_eq_of_perm {l1 l2 : List Region}
    (hperm : l1.Perm l2) (hnd : (l1.map (fun r => r.start)).Nodup) :
    sortByStartAsc l1 = sortByStartAsc l2 := by
  have hperm12 : (sortByStartAsc l1).Perm (sortByStartAsc l2) :=
    (sortLe_perm _ l1).trans (hperm.trans (sortLe_perm _ l2).symm)
  have hnd1 : ((sortByStartAsc l1).map (fun r => r.start)).Nodup :=
    ((sortLe_perm _ l1).map _).nodup_iff.mpr hnd
  have hnd2 : ((sortByStartAsc l2).map (fun r => r.start)).Nodup :=
    ((hperm12.map _).nodup_iff).mp hnd1
  have hs1 := pairwise_lt_of_pairwise_le_nodup (pairwise_sortByStartAsc l1) hnd1
  have hs2 := pairwise_lt_of_pairwise_le_nodup (pairwise_sortByStartAsc l2) hnd2
  haveI : IsAntisymm Region (fun a b => a.start < b.start) :=
    ⟨fun a b h1 h2 => absurd (h1.trans h2) (lt_irrefl _)⟩
  exact List.eq_of_perm_of_sorted hperm12 hs1 hs2

/-- C4: extraction is independent of the stored order of a transcript's
regions (it re-sorts ascending by genomic start), and assembles the
1-based inclusive slices in ascending order before a single whole-buffer
reverse-complement for a minus-strand transcript; in particular the
chromosome `AAACCCGGGTTTAAACCCGG` with regions `[14,16]` and `[18,20]` on
the minus strand — here given in the canonical (descending) stored
order — yields `CCGGTT`. -/
theorem claim_C4 :
    (∀ (genome : List (String × List Char)) (id id' chromosome : String)
      (regions regions' : List Region) (s0 : Strand),
      regions ≠ [] → (∀ r ∈ regions, r.strand = s0) →
      (regions.map (fun r => r.start)).Nodup →
      regions.Perm regions' →
      extract_transcript_sequence genome ⟨id, chromosome, regions⟩ =
        extract_transcript_sequence genome ⟨id', chromosome, regions'⟩) ∧
    (extract_transcript_sequence [("chr1", "AAACCCGGGTTTAAACCCGG".data)]
        ⟨"tx2", "chr1", [⟨"ex4", 18, 20, .Minus⟩, ⟨"ex3", 14, 16, .Minus⟩]⟩ =
      .ok ("CCGGTT".data)) := by
  constructor
  · intro genome id id' chromosome regions regions' s0 hne hstr hnd hperm
    rcases regions with _ | ⟨f, rest⟩
    · exact absurd rfl hne
    rcases hr' : regions' with _ | ⟨f', rest'⟩
    · rw [hr'] at hperm
      have := hperm.length_eq
      simp at this
    rw [hr'] at hperm
    have hf : f.strand = s0 := hstr f (by simp)
    have hf' : f'.strand = s0 := hstr f' (hperm.mem_iff.mpr (by simp))
    have hsorteq := sortByStartAsc_eq_of_perm hperm hnd
    simp only [extract_transcript_sequence]
    cases hg : genomeGet genome chromosome with
    | none => rfl
    | some seq =>
      rw [hsorteq, hf, hf']
  · rfl

/-- Witness for C4: the two stored orders of the minus-strand example
extract identically. -/
theorem claim_C4_witness :
    (([⟨"ex4", 18, 20, .Minus⟩, ⟨"ex3", 14, 16, .Minus⟩] : List Region) ≠ [] ∧
      (∀ r ∈ ([⟨"ex4", 18, 20, .Minus⟩, ⟨"ex3", 14, 16, .Minus⟩] : List Region),
        r.strand = Strand.Minus)) ∧
    extract_transcript_sequence [("chr1", "AAACCCGGGTTTAAACCCGG".data)]
        ⟨"tx2", "chr1", [⟨"ex4", 18, 20, .Minus⟩, ⟨"ex3", 14, 16, .Minus⟩]⟩ =
      extract_transcript_sequence [("chr1", "AAACCCGGGTTTAAACCCGG".data)]
        ⟨"tx2sorted", "chr1", [⟨"ex3", 14, 16, .Minus⟩, ⟨"ex4", 18, 20, .Minus⟩]⟩ :=
  ⟨⟨by decide, by decide⟩,
    claim_C4.1 [("chr1", "AAACCCGGGTTTAAACCCGG".data)] "tx2" "tx2sorted" "chr1"
      [⟨"ex4", 18, 20, .Minus⟩, ⟨"ex3", 14, 16, .Minus⟩]
      [⟨"ex3", 14, 16, .Minus⟩, ⟨"ex4", 18, 20, .Minus⟩] Strand.Minus
      (by decide) (by decide) (by decide)
      (List.Perm.swap (⟨"ex3", 14, 16, .Minus⟩ : Region)
        (⟨"ex4", 18, 20, .Minus⟩ : Region) [])⟩

/-- Counterexample to C2 as stated: with one mixed-strand group `tx1` and
one perfectly valid group `tx2`, `build_transcripts_from_regions` returns
an error for the whole batch — `tx2` is not validated into any returned
list, so a Fatal finding does not exclude only the offending transcript. -/
theorem claim_C2_counterexample :
    build_transcripts_from_regions
      [⟨"chr1", 1, 3, .Plus, "tx1", "r1", none⟩,
       ⟨"chr1", 5, 8, .Minus, "tx1", "r2", none⟩,
       ⟨"chr1", 1, 3, .Plus, "tx2", "r3", none⟩] =
      .error (.mixedStrands "tx1") := rfl

/-- C2 (amended): a Fatal finding while constructing any one transcript
aborts `build_transcripts_from_regions` entirely — the function returns an
error (via `?`-propagation, or a panic for overlap/negative-width), and no
transcript list is produced, so the other groups' transcripts are not
returned. -/
theorem claim_C2 (trs : List TranscriptRegion) (m : GroupMap)
    (id chromosome : String) (regions : List Region) (e : BuildError)
    (hg : groupLoop [] trs = .ok m)
    (hm : (id, (chromosome, regions)) ∈ m)
    (he : Transcript.new id chromosome regions = .error e) :
    ∃ f, build_transcripts_from_regions trs = .error f := by
  obtain ⟨f, hf⟩ := buildAll_error_of_mem m id chromosome regions e hm he
  exact ⟨f, by simp only [build_transcripts_from_regions, hg, hf]⟩

/-- Witness for C2's amended theorem at the counterexample input. -/
theorem claim_C2_witness :
    (groupLoop []
        [⟨"chr1", 1, 3, .Plus, "tx1", "r1", none⟩,
         ⟨"chr1", 5, 8, .Minus, "tx1", "r2", none⟩,
         ⟨"chr1", 1, 3, .Plus, "tx2", "r3", none⟩] =
      .ok [("tx1", ("chr1", [⟨"r1", 1, 3, .Plus⟩, ⟨"r2", 5, 8, .Minus⟩])),
           ("tx2", ("chr1", [⟨"r3", 1, 3, .Plus⟩]))]) ∧
    (Transcript.new "tx1" "chr1" [⟨"r1", 1, 3, .Plus⟩, ⟨"r2", 5, 8, .Minus⟩] =
      .error (.mixedStrands "tx1")) ∧
    (∃ f, build_transcripts_from_regions
        [⟨"chr1", 1, 3, .Plus, "tx1", "r1", none⟩,
         ⟨"chr1", 5, 8, .Minus, "tx1", "r2", none⟩,
         ⟨"chr1", 1, 3, .Plus, "tx2", "r3", none⟩] = .error f) :=
  ⟨rfl, rfl,
    claim_C2 _ [("tx1", ("chr1", [⟨"r1", 1, 3, .Plus⟩, ⟨"r2", 5, 8, .Minus⟩])),
        ("tx2", ("chr1", [⟨"r3", 1, 3, .Plus⟩]))]
      "tx1" "chr1" [⟨"r1", 1, 3, .Plus⟩, ⟨"r2", 5, 8, .Minus⟩]
      (.mixedStrands "tx1") rfl (by simp) rfl⟩

/-- Counterexample to C6 as stated: a second `RawRegion` for `tx1` on a
different chromosome makes the grouping loop abort the whole run with a
panic (modelled as this error); the region is not dropped and no
transcript is built from the consistent regions. -/
theorem claim_C6_counterexample :
    build_transcripts_from_regions
      [⟨"chr1", 1, 3, .Plus, "tx1", "r1", none⟩,
       ⟨"chr2", 5, 8, .Plus, "tx1", "r2", none⟩] =
      .error (.chromosomeMismatchAbort "tx1" "chr1" "chr2") := rfl

/-- C6 (amended): a later region whose chromosome differs from its
transcript's first-recorded chromosome makes
`build_transcripts_from_regions` abort with a panic naming the transcript
id and both chromosomes; the offending region is not dropped and no
transcripts at all are returned. -/
theorem claim_C6 (pre post : List TranscriptRegion) (tr : TranscriptRegion)
    (m : GroupMap) (chromosome : String) (rs : List Region)
    (hpre : groupLoop [] pre = .ok m)
    (hmem : (tr.transcript_id, (chromosome, rs)) ∈ m)
    (hne : chromosome ≠ tr.chromosome) :
    build_transcripts_from_regions (pre ++ tr :: post) =
      .error (.chromosomeMismatchAbort tr.transcript_id chromosome tr.chromosome) := by
  have hnd := groupLoop_nodup pre [] m (by simp) hpre
  have hfind := find?_of_mem_nodup hmem hnd
  have hstep : groupStep m tr =
      .error (.chromosomeMismatchAbort tr.transcript_id chromosome tr.chromosome) := by
    simp only [groupStep, hfind]
    rw [if_pos hne]
  have hloop : groupLoop [] (pre ++ tr :: post) =
      .error (.chromosomeMismatchAbort tr.transcript_id chromosome tr.chromosome) := by
    rw [groupLoop_append, hpre]
    simp only [groupLoop, hstep]
  simp only [build_transcripts_from_regions, hloop]

/-- Witness for C6's amended theorem at the counterexample input. -/
theorem claim_C6_witness :
    (groupLoop [] [⟨"chr1", 1, 3, .Plus, "tx1", "r1", none⟩] =
      .ok [("tx1", ("chr1", [⟨"r1", 1, 3, .Plus⟩]))]) ∧
    ("chr1" ≠ (⟨"chr2", 5, 8, .Plus, "tx1", "r2", none⟩ : TranscriptRegion).chromosome) ∧
    (build_transcripts_from_regions
        ([⟨"chr1", 1, 3, .Plus, "tx1", "r1", none⟩] ++
          (⟨"chr2", 5, 8, .Plus, "tx1", "r2", none⟩ : TranscriptRegion) :: []) =
      .error (.chromosomeMismatchAbort "tx1" "chr1" "chr2")) :=
  ⟨rfl, by decide,
    claim_C6 [⟨"chr1", 1, 3, .Plus, "tx1", "r1", none⟩] []
      ⟨"chr2", 5, 8, .Plus, "tx1", "r2", none⟩
      [("tx1", ("chr1", [⟨"r1", 1, 3, .Plus⟩]))] "chr1" [⟨"r1", 1, 3, .Plus⟩]
      rfl (by simp) (by decide)⟩

/-- Counterexample to C5 as stated: for region `[1,5]` on a chromosome of
length 3, the live `extract_transcript_sequence` performs the out-of-range
slice (a Rust index panic, modelled as `sliceOutOfRangeAbort`, which names
no transcript), while only the unused `_extract_transcript_sequence`
returns the explicit bounds error naming the transcript. -/
theorem claim_C5_counterexample :
    (extract_transcript_sequence [("chr1", "ACG".data)]
        ⟨"tx", "chr1", [⟨"r1", 1, 5, .Plus⟩]⟩ =
      .error (.sliceOutOfRangeAbort 0 5 3)) ∧
    (_extract_transcript_sequence [("chr1", "ACG".data)]
        ⟨"tx", "chr1", [⟨"r1", 1, 5, .Plus⟩]⟩ =
      .error (.outOfBounds 1 5 "tx")) := ⟨rfl, rfl⟩

/-- C5 (amended): when some region's end exceeds the chromosome length,
the live `extract_transcript_sequence` aborts on the out-of-range slice
itself (an error carrying no transcript attribution), whereas the unused
`_extract_transcript_sequence` fails with the explicit out-of-bounds error
naming the transcript. -/
theorem claim_C5 (genome : List (String × List Char)) (t : Transcript)
    (seq : List Char)
    (hg : genomeGet genome t.chromosome = some seq)
    (hne : t.regions ≠ [])
    (hok : ∀ r ∈ t.regions, 1 ≤ r.start ∧ r.start ≤ r.«end»)
    (hbad : ∃ r ∈ t.regions, seq.length < r.«end») :
    (∃ a b, extract_transcript_sequence genome t =
      .error (.sliceOutOfRangeAbort a b seq.length)) ∧
    (∃ a b, _extract_transcript_sequence genome t =
      .error (.outOfBounds a b t.id)) := by
  constructor
  · have hperm : (sortByStartAsc t.regions).Perm t.regions := sortLe_perm _ _
    cases hloop : extractLoop seq (sortByStartAsc t.regions) with
    | ok s =>
      exfalso
      obtain ⟨r, hr, hrl⟩ := hbad
      have := extractLoop_ok_bound seq _ s hloop r (hperm.mem_iff.mpr hr)
      omega
    | error e =>
      obtain ⟨a, b, hab⟩ := extractLoop_error_slice seq _
        (fun r hr => (hok r (hperm.mem_iff.mp hr)).1) e hloop
      refine ⟨a, b, ?_⟩
      rw [hab] at hloop
      simp only [extract_transcript_sequence, hg, hloop]
  · cases hre : t.regions with
    | nil => exact absurd hre hne
    | cons f rest =>
      rw [hre] at hok hbad
      have hperm2 : (sortRegions f.strand (f :: rest)).Perm (f :: rest) :=
        sortRegions_perm _ _
      obtain ⟨a, b, hres⟩ := uExtractLoop_bad t.id seq
        (sortRegions f.strand (f :: rest)) 0
        (fun r hr => hok r (hperm2.mem_iff.mp hr))
        (by
          obtain ⟨r, hr, hrl⟩ := hbad
          exact ⟨r, hperm2.mem_iff.mpr hr, hrl⟩)
      refine ⟨a, b, ?_⟩
      simp only [_extract_transcript_sequence, hg, hre, hres]

/-- Witness for C5's amended theorem at the counterexample input. -/
theorem claim_C5_witness :
    (genomeGet [("chr1", "ACG".data)] "chr1" = some ("ACG".data) ∧
      (∀ r ∈ ([⟨"r1", 1, 5, .Plus⟩] : List Region),
        1 ≤ r.start ∧ r.start ≤ r.«end»)) ∧
    ((∃ a b, extract_transcript_sequence [("chr1", "ACG".data)]
        ⟨"txw", "chr1", [⟨"r1", 1, 5, .Plus⟩]⟩ =
      .error (.sliceOutOfRangeAbort a b ("ACG".data).length)) ∧
    (∃ a b, _extract_transcript_sequence [("chr1", "ACG".data)]
        ⟨"txw", "chr1", [⟨"r1", 1, 5, .Plus⟩]⟩ =
      .error (.outOfBounds a b "txw"))) :=
  ⟨⟨rfl, by decide⟩,
    claim_C5 [("chr1", "ACG".data)] ⟨"txw", "chr1", [⟨"r1", 1, 5, .Plus⟩]⟩
      ("ACG".data) rfl (by decide) (by decide)
      ⟨⟨"r1", 1, 5, .Plus⟩, by decide, by decide⟩⟩

end Thaf
